import Mathlib

/-!
Shallow embedding of the trial-timing scheduler of the localizer-task
repository (generate_config_files.py and combined_task.py), together with
proofs about it.

Randomness: the Python code draws shuffles and samples from pseudo-random
generators.  The embedding makes every random draw an explicit oracle
parameter: a shuffle oracle is an indexed family of reorderings (one entry
per call), and a sampling oracle yields the vector drawn at each attempt of
a rejection loop.  A validity predicate states exactly what the library
guarantees of a draw (a shuffle returns a permutation of its input; a
sampled inter-trial interval lies in the candidate pool).  Theorems
quantify over all valid oracles, hence over all possible random outcomes.
-/

namespace Localizer

/-- An indexed family of reorderings standing for successive calls to the
ambient random shuffles of the Python code (random.shuffle, random.sample
of the full slice, np.random.shuffle, np.random.permutation). -/
def ShuffleOracle (α : Type) : Type := Nat → List α → List α

/-- Validity of a shuffle oracle: every call returns a permutation of its
input list. -/
def ValidShuffle {α : Type} (sh : ShuffleOracle α) : Prop :=
  ∀ i l, (sh i l).Perm l

/-- The identity oracle, one possible outcome of every random shuffle. -/
def idShuffle {α : Type} : ShuffleOracle α := fun _ l => l

theorem idShuffle_valid {α : Type} : ValidShuffle (@idShuffle α) :=
  fun _ _ => List.Perm.refl _

/-- Keep the first element in place and reorder the rest: models the line
lst[1:] = random.sample(lst[1:], len(lst)-1) of randomize_carefully. -/
def keepHeadShuffle {α : Type} (sh2 : List α → List α) : List α → List α
  | [] => []
  | h :: t => h :: sh2 t

/-- One batch of randomize_carefully when the accumulated output is
nonempty with last element lastE: shuffle the condition set minus lastE,
append lastE at the end, then reorder all but the first position. -/
def rcBatch {α : Type} [DecidableEq α] (sh1 sh2 : List α → List α)
    (elems : List α) (lastE : α) : List α :=
  keepHeadShuffle sh2 (sh1 (elems.dedup.filter (fun x => x ≠ lastE)) ++ [lastE])

/-- One iteration of the loop body of randomize_carefully: the first pass
shuffles the full input list, later passes avoid the last placed element. -/
def rcStep {α : Type} [DecidableEq α] (sh1 sh2 : List α → List α)
    (elems res : List α) : List α :=
  match res.getLast? with
  | none => res ++ sh1 elems
  | some lastE => res ++ rcBatch sh1 sh2 elems lastE

/-- Embedding of randomize_carefully(elems, n_repeat) from
generate_config_files.py; sh supplies the successive random shuffles
(two potential shuffle calls per pass). -/
def randomize_carefully {α : Type} [DecidableEq α] (sh : ShuffleOracle α)
    (elems : List α) (n_repeat : Nat) : List α :=
  (List.range n_repeat).foldl
    (fun res n => rcStep (sh (2 * n)) (sh (2 * n + 1)) elems res) []

theorem keepHeadShuffle_perm {α : Type} (sh2 : List α → List α)
    (hsh2 : ∀ l, (sh2 l).Perm l) (l : List α) :
    (keepHeadShuffle sh2 l).Perm l := by
  cases l with
  | nil => simp [keepHeadShuffle]
  | cons h t => exact (hsh2 t).cons h

theorem keepHeadShuffle_head? {α : Type} (sh2 : List α → List α) (l : List α) :
    (keepHeadShuffle sh2 l).head? = l.head? := by
  cases l <;> simp [keepHeadShuffle]

theorem mem_of_getLast?_eq {α : Type} {l : List α} {a : α}
    (h : l.getLast? = some a) : a ∈ l := by
  induction l with
  | nil => simp at h
  | cons b t ih =>
    cases t with
    | nil => simp_all
    | cons c t2 =>
      rw [List.getLast?_cons_cons] at h
      exact List.mem_cons_of_mem b (ih h)

theorem filter_ne_append_perm {α : Type} [DecidableEq α] {l : List α} {a : α}
    (hnd : l.Nodup) (ha : a ∈ l) :
    (l.filter (fun x => x ≠ a) ++ [a]).Perm l := by
  induction l with
  | nil => simp at ha
  | cons b t ih =>
    rcases List.mem_cons.mp ha with rfl | hat
    · have hnotin : a ∉ t := (List.nodup_cons.mp hnd).1
      have hfilter : t.filter (fun x => x ≠ a) = t :=
        List.filter_eq_self.mpr (fun x hx => by
          simp only [decide_eq_true_eq]
          exact fun hxa => hnotin (hxa ▸ hx))
      rw [List.filter_cons_of_neg (by simp), hfilter]
      exact List.perm_append_singleton a t
    · have hba : b ≠ a := by
        rintro rfl
        exact (List.nodup_cons.mp hnd).1 hat
      have ih2 := ih (List.nodup_cons.mp hnd).2 hat
      rw [List.filter_cons_of_pos (by simp [hba]), List.cons_append]
      exact ih2.cons b

theorem rcBatch_perm {α : Type} [DecidableEq α] (sh1 sh2 : List α → List α)
    (hsh1 : ∀ l, (sh1 l).Perm l) (hsh2 : ∀ l, (sh2 l).Perm l)
    {elems : List α} (hnd : elems.Nodup) {lastE : α} (hmem : lastE ∈ elems) :
    (rcBatch sh1 sh2 elems lastE).Perm elems := by
  unfold rcBatch
  have hded : elems.dedup = elems := List.dedup_eq_self.mpr hnd
  rw [hded]
  refine (keepHeadShuffle_perm sh2 hsh2 _).trans ?_
  refine ((hsh1 _).append_right [lastE]).trans ?_
  exact filter_ne_append_perm hnd hmem

theorem randomize_carefully_zero {α : Type} [DecidableEq α]
    (sh : ShuffleOracle α) (elems : List α) :
    randomize_carefully sh elems 0 = [] := rfl

theorem randomize_carefully_succ {α : Type} [DecidableEq α]
    (sh : ShuffleOracle α) (elems : List α) (n : Nat) :
    randomize_carefully sh elems (n + 1) =
      rcStep (sh (2 * n)) (sh (2 * n + 1)) elems
        (randomize_carefully sh elems n) := by
  unfold randomize_carefully
  rw [List.range_succ, List.foldl_append]
  rfl

theorem randomize_carefully_perm_flatten {α : Type} [DecidableEq α]
    (sh : ShuffleOracle α) (hsh : ValidShuffle sh)
    (elems : List α) (hnd : elems.Nodup) (n : Nat) :
    (randomize_carefully sh elems n).Perm (List.replicate n elems).flatten := by
  induction n with
  | zero => simp [randomize_carefully_zero]
  | succ n ih =>
    rw [randomize_carefully_succ, List.replicate_succ', List.flatten_append]
    simp only [List.flatten_cons, List.flatten_nil, List.append_nil]
    unfold rcStep
    cases hlast : (randomize_carefully sh elems n).getLast? with
    | none =>
      have hres : randomize_carefully sh elems n = [] :=
        List.getLast?_eq_none_iff.mp hlast
      rw [hres] at ih ⊢
      have hflat : (List.replicate n elems).flatten = [] :=
        (ih.symm.eq_nil)
      rw [hflat]
      simpa using (hsh (2 * n) elems)
    | some lastE =>
      have hmemres : lastE ∈ randomize_carefully sh elems n :=
        mem_of_getLast?_eq hlast
      have hmem : lastE ∈ elems := by
        have := ih.mem_iff.mp hmemres
        rcases List.mem_flatten.mp this with ⟨l, hl, hx⟩
        rcases (List.mem_replicate.mp hl).2 with rfl
        exact hx
      have hbatch : (rcBatch (sh (2 * n)) (sh (2 * n + 1)) elems lastE).Perm elems :=
        rcBatch_perm (sh (2 * n)) (sh (2 * n + 1)) (hsh (2 * n)) (hsh (2 * n + 1)) hnd hmem
      exact ih.append hbatch

theorem flatten_replicate_length {α : Type} (elems : List α) (n : Nat) :
    (List.replicate n elems).flatten.length = n * elems.length := by
  rw [List.length_flatten, List.map_replicate, List.sum_replicate, smul_eq_mul]

theorem flatten_replicate_count {α : Type} [DecidableEq α] (elems : List α)
    (n : Nat) (c : α) :
    (List.replicate n elems).flatten.count c = n * elems.count c := by
  rw [List.count_flatten, List.map_replicate, List.sum_replicate, smul_eq_mul]

/-- C2: for every valid shuffle oracle, every nonempty duplicate-free list
of conditions and every repeats at least 1, randomize_carefully returns a
sequence of length len(conditions) * repeats in which each condition
appears exactly repeats times. -/
theorem randomize_carefully_balanced {α : Type} [DecidableEq α]
    (sh : ShuffleOracle α) (hsh : ValidShuffle sh) (elems : List α)
    (hne : elems ≠ []) (hnd : elems.Nodup) (n_repeat : Nat)
    (hrep : 1 ≤ n_repeat) :
    (randomize_carefully sh elems n_repeat).length = elems.length * n_repeat ∧
    ∀ c ∈ elems, (randomize_carefully sh elems n_repeat).count c = n_repeat := by
  have hperm := randomize_carefully_perm_flatten sh hsh elems hnd n_repeat
  constructor
  · rw [hperm.length_eq, flatten_replicate_length, Nat.mul_comm]
  · intro c hc
    rw [hperm.count_eq c, flatten_replicate_count,
      List.count_eq_one_of_mem hnd hc, Nat.mul_one]

theorem randomize_carefully_balanced_witness :
    ((randomize_carefully (@idShuffle Nat) [1, 2, 3] 2).length = 3 * 2 ∧
      ∀ c ∈ [1, 2, 3],
        (randomize_carefully (@idShuffle Nat) [1, 2, 3] 2).count c = 2) := by
  have h := randomize_carefully_balanced (@idShuffle Nat) idShuffle_valid
    [1, 2, 3] (by decide) (by decide) 2 (by decide)
  simpa using h

theorem rcBatch_head_ne {α : Type} [DecidableEq α] (sh1 sh2 : List α → List α)
    (hsh1 : ∀ l, (sh1 l).Perm l) {elems : List α} (hnd : elems.Nodup)
    {lastE : α} (hmem : lastE ∈ elems) (h2 : 2 ≤ elems.length) :
    ∀ y ∈ (rcBatch sh1 sh2 elems lastE).head?, y ≠ lastE := by
  intro y hy
  unfold rcBatch at hy
  rw [keepHeadShuffle_head?] at hy
  have hded : elems.dedup = elems := List.dedup_eq_self.mpr hnd
  rw [hded] at hy
  set F := elems.filter (fun x => x ≠ lastE) with hF
  have hlenF : F.length + 1 = elems.length := by
    have h := (filter_ne_append_perm hnd hmem).length_eq
    rw [List.length_append, List.length_singleton] at h
    exact h
  have hGne : sh1 F ≠ [] := by
    intro hnil
    have hlen := (hsh1 F).length_eq
    rw [hnil] at hlen
    simp only [List.length_nil] at hlen
    omega
  obtain ⟨z, t, hzt⟩ := List.exists_cons_of_ne_nil hGne
  rw [hzt, List.cons_append, List.head?_cons, Option.mem_some_iff] at hy
  subst hy
  have hzF : z ∈ F :=
    (hsh1 F).mem_iff.mp (by rw [hzt]; exact List.mem_cons_self z t)
  have := List.of_mem_filter hzF
  simpa using this

theorem randomize_carefully_chain_aux {α : Type} [DecidableEq α]
    (sh : ShuffleOracle α) (hsh : ValidShuffle sh) (elems : List α)
    (hnd : elems.Nodup) (h2 : 2 ≤ elems.length) :
    ∀ n, List.Chain' (fun a b => a ≠ b) (randomize_carefully sh elems n) := by
  intro n
  induction n with
  | zero => exact List.chain'_nil
  | succ n ih =>
    rw [randomize_carefully_succ]
    unfold rcStep
    cases hlast : (randomize_carefully sh elems n).getLast? with
    | none =>
      have hres : randomize_carefully sh elems n = [] :=
        List.getLast?_eq_none_iff.mp hlast
      rw [hres, List.nil_append]
      exact List.Pairwise.chain' ((hsh (2 * n) elems).symm.nodup hnd)
    | some lastE =>
      have hmemres : lastE ∈ randomize_carefully sh elems n :=
        mem_of_getLast?_eq hlast
      have hmem : lastE ∈ elems := by
        have hperm := randomize_carefully_perm_flatten sh hsh elems hnd n
        have := hperm.mem_iff.mp hmemres
        rcases List.mem_flatten.mp this with ⟨l, hl, hx⟩
        rcases (List.mem_replicate.mp hl).2 with rfl
        exact hx
      have hbatchperm : (rcBatch (sh (2 * n)) (sh (2 * n + 1)) elems lastE).Perm elems :=
        rcBatch_perm (sh (2 * n)) (sh (2 * n + 1)) (hsh (2 * n)) (hsh (2 * n + 1)) hnd hmem
      refine List.Chain'.append ih
        (List.Pairwise.chain' (hbatchperm.symm.nodup hnd)) ?_
      intro x hx y hy
      rw [hlast, Option.mem_some_iff] at hx
      subst hx
      exact (rcBatch_head_ne (sh (2 * n)) (sh (2 * n + 1)) (hsh (2 * n))
        hnd hmem h2 y hy).symm

/-- C3: for every valid shuffle oracle, every list of at least two distinct
conditions and every repeats at least 1, the sequence produced by
randomize_carefully contains no two adjacent equal entries, including at
the boundary between consecutive passes. -/
theorem randomize_carefully_no_adjacent {α : Type} [DecidableEq α]
    (sh : ShuffleOracle α) (hsh : ValidShuffle sh) (elems : List α)
    (hnd : elems.Nodup) (h2 : 2 ≤ elems.length) (n_repeat : Nat)
    (hrep : 1 ≤ n_repeat) :
    List.Chain' (fun a b => a ≠ b) (randomize_carefully sh elems n_repeat) :=
  randomize_carefully_chain_aux sh hsh elems hnd h2 n_repeat

theorem randomize_carefully_no_adjacent_witness :
    List.Chain' (fun a b => a ≠ b)
      (randomize_carefully (@idShuffle Nat) [1, 2, 3] 2) :=
  randomize_carefully_no_adjacent (@idShuffle Nat) idShuffle_valid [1, 2, 3]
    (by decide) (by decide) 2 (by decide)

theorem randomize_carefully_nil {α : Type} [DecidableEq α]
    (sh : ShuffleOracle α) (hsh : ValidShuffle sh) (n : Nat) :
    randomize_carefully sh [] n = [] := by
  induction n with
  | zero => rfl
  | succ n ih =>
    rw [randomize_carefully_succ, ih]
    unfold rcStep
    simp [(hsh (2 * n) []).eq_nil]

theorem rcStep_of_getLast?_some {α : Type} [DecidableEq α]
    (sh1 sh2 : List α → List α) (elems res : List α) {lastE : α}
    (h : res.getLast? = some lastE) :
    rcStep sh1 sh2 elems res = res ++ rcBatch sh1 sh2 elems lastE := by
  unfold rcStep
  rw [h]

theorem randomize_carefully_single {α : Type} [DecidableEq α]
    (sh : ShuffleOracle α) (hsh : ValidShuffle sh) (c : α) (n : Nat) :
    randomize_carefully sh [c] n = List.replicate n c := by
  induction n with
  | zero => rfl
  | succ n ih =>
    rw [randomize_carefully_succ, ih]
    cases n with
    | zero =>
      unfold rcStep
      simp [(hsh 0 [c]).eq_singleton]
    | succ m =>
      have hlast : (List.replicate (m + 1) c).getLast? = some c := by
        rw [List.replicate_succ']
        exact List.getLast?_concat _
      rw [rcStep_of_getLast?_some _ _ _ _ hlast]
      unfold rcBatch
      have hfilter : (([c] : List α).dedup.filter (fun x => x ≠ c)) = [] := by
        simp
      rw [hfilter, (hsh (2 * (m + 1)) []).eq_nil, List.nil_append]
      simp only [keepHeadShuffle]
      rw [(hsh (2 * (m + 1) + 1) []).eq_nil]
      rw [← List.replicate_succ' (m + 1) c]

/-- C8 counterexample: with a single condition and two repeats, the
condition sequencer does not fail: it returns the condition twice, with the
two adjacent entries equal. -/
theorem randomize_carefully_single_cond_cex :
    randomize_carefully (@idShuffle Nat) [1] 2 = [1, 1] ∧
      ¬ List.Chain' (fun a b : Nat => a ≠ b) [1, 1] := by
  constructor
  · rfl
  · intro h
    exact (List.chain'_cons.mp h).1 rfl

/-- C8 amended: randomize_carefully raises no error: with zero repeats or an
empty condition list it returns the empty sequence, and with exactly one
condition it returns that condition repeated n_repeat times, terminating
but with adjacent duplicates whenever n_repeat exceeds 1. -/
theorem randomize_carefully_no_failure {α : Type} [DecidableEq α]
    (sh : ShuffleOracle α) (hsh : ValidShuffle sh) (c : α) (elems : List α)
    (n_repeat : Nat) :
    randomize_carefully sh elems 0 = [] ∧
    randomize_carefully sh [] n_repeat = [] ∧
    randomize_carefully sh [c] n_repeat = List.replicate n_repeat c :=
  ⟨rfl, randomize_carefully_nil sh hsh n_repeat,
    randomize_carefully_single sh hsh c n_repeat⟩

theorem randomize_carefully_no_failure_witness :
    randomize_carefully (@idShuffle Nat) [1, 2] 0 = [] ∧
    randomize_carefully (@idShuffle Nat) [] 3 = [] ∧
    randomize_carefully (@idShuffle Nat) [1] 3 = List.replicate 3 1 :=
  randomize_carefully_no_failure (@idShuffle Nat) idShuffle_valid 1 [1, 2] 3

/-- Trial-type dictionary TRIAL_DICT of generate_config_files.py. -/
def TRIAL_DICT : Nat → String
  | 1 => "visual"
  | 2 => "visual/auditory"
  | 3 => "motor"
  | 4 => "motor/auditory"
  | _ => ""

/-- list(TRIAL_DICT.keys()). -/
def trialKeys : List Nat := [1, 2, 3, 4]

/-- N_CONDS = len(TRIAL_DICT.keys()). -/
def N_CONDS : Nat := 4

/-- N_BLOCKS, blocks per condition for the detection task. -/
def N_BLOCKS : Nat := 4

/-- N_TRIALS, trials per condition for the estimation task. -/
def N_TRIALS : Nat := 15

/-- TASK_TIME, seconds devoted to trials in each task. -/
def TASK_TIME : ℚ := 438

/-- Embedding of detection_timing(): durations and rests are the constant
block_dur = rest_dur = 14, repeated N_BLOCKS * N_CONDS times, and the
condition order comes from randomize_carefully over the four trial types,
mapped through TRIAL_DICT. -/
def detection_timing (sh : ShuffleOracle Nat) : List ℚ × List ℚ × List String :=
  (List.replicate (N_BLOCKS * N_CONDS) (14 : ℚ),
   List.replicate (N_BLOCKS * N_CONDS) (14 : ℚ),
   (randomize_carefully sh trialKeys N_BLOCKS).map TRIAL_DICT)

theorem TRIAL_DICT_inj_on :
    ∀ x ∈ trialKeys, ∀ k ∈ trialKeys, TRIAL_DICT x = TRIAL_DICT k → x = k := by
  decide

theorem randomize_carefully_mem {α : Type} [DecidableEq α]
    (sh : ShuffleOracle α) (hsh : ValidShuffle sh) (elems : List α)
    (hnd : elems.Nodup) (n : Nat) :
    ∀ x ∈ randomize_carefully sh elems n, x ∈ elems := by
  intro x hx
  have hperm := randomize_carefully_perm_flatten sh hsh elems hnd n
  rcases List.mem_flatten.mp (hperm.mem_iff.mp hx) with ⟨l, hl, hxl⟩
  rcases (List.mem_replicate.mp hl).2 with rfl
  exact hxl

theorem count_map_TRIAL_DICT (l : List Nat) (hl : ∀ x ∈ l, x ∈ trialKeys)
    (k : Nat) (hk : k ∈ trialKeys) :
    (l.map TRIAL_DICT).count (TRIAL_DICT k) = l.count k := by
  induction l with
  | nil => simp
  | cons a t ih =>
    have ha := hl a (List.mem_cons_self a t)
    have ht : ∀ x ∈ t, x ∈ trialKeys := fun x hx => hl x (List.mem_cons_of_mem a hx)
    simp only [List.map_cons, List.count_cons]
    rw [ih ht]
    by_cases hak : a = k
    · subst hak
      simp
    · have hne : TRIAL_DICT a ≠ TRIAL_DICT k :=
        fun he => hak (TRIAL_DICT_inj_on a ha k hk he)
      simp [hak, hne]

theorem chain_ne_map_of_inj_on {α β : Type} (f : α → β) (S : List α) :
    ∀ l : List α, (∀ x ∈ l, x ∈ S) →
      (∀ x ∈ S, ∀ y ∈ S, f x = f y → x = y) →
      List.Chain' (fun a b => a ≠ b) l →
      List.Chain' (fun a b => a ≠ b) (l.map f)
  | [], _, _, _ => List.chain'_nil
  | [_], _, _, _ => List.chain'_singleton _
  | a :: b :: t, hmem, hinj, h => by
    simp only [List.map_cons]
    rw [List.chain'_cons]
    rw [List.chain'_cons] at h
    refine ⟨fun hfe => h.1 (hinj a (hmem a (by simp)) b (hmem b (by simp)) hfe), ?_⟩
    have hrec := chain_ne_map_of_inj_on f S (b :: t)
      (fun x hx => hmem x (List.mem_cons_of_mem a hx)) hinj h.2
    simpa using hrec

/-- C9: in block-design mode (detection_timing) with the four conditions
and four blocks each, for every valid shuffle oracle the schedule has
exactly 16 trials, every duration is 14.0, every iti is 14.0, each of the
four condition labels appears exactly 4 times, and no two adjacent trials
share a condition. -/
theorem detection_timing_spec (sh : ShuffleOracle Nat) (hsh : ValidShuffle sh) :
    (detection_timing sh).1.length = 16 ∧
    (detection_timing sh).2.1.length = 16 ∧
    (detection_timing sh).2.2.length = 16 ∧
    (∀ d ∈ (detection_timing sh).1, d = (14 : ℚ)) ∧
    (∀ i ∈ (detection_timing sh).2.1, i = (14 : ℚ)) ∧
    (∀ k ∈ trialKeys, (detection_timing sh).2.2.count (TRIAL_DICT k) = 4) ∧
    List.Chain' (fun a b => a ≠ b) (detection_timing sh).2.2 := by
  have hnd : trialKeys.Nodup := by decide
  have hperm := randomize_carefully_perm_flatten sh hsh trialKeys hnd N_BLOCKS
  refine ⟨by simp [detection_timing, N_BLOCKS, N_CONDS],
    by simp [detection_timing, N_BLOCKS, N_CONDS], ?_, ?_, ?_, ?_, ?_⟩
  · have hlen : (randomize_carefully sh trialKeys N_BLOCKS).length = 16 := by
      rw [hperm.length_eq, flatten_replicate_length]
      rfl
    simp [detection_timing, hlen]
  · intro d hd
    exact (List.eq_of_mem_replicate hd)
  · intro i hi
    exact (List.eq_of_mem_replicate hi)
  · intro k hk
    show ((randomize_carefully sh trialKeys N_BLOCKS).map TRIAL_DICT).count
      (TRIAL_DICT k) = 4
    rw [count_map_TRIAL_DICT _ (randomize_carefully_mem sh hsh trialKeys hnd N_BLOCKS) k hk]
    rw [hperm.count_eq, flatten_replicate_count, List.count_eq_one_of_mem hnd hk]
    rfl
  · exact chain_ne_map_of_inj_on TRIAL_DICT trialKeys _
      (randomize_carefully_mem sh hsh trialKeys hnd N_BLOCKS)
      TRIAL_DICT_inj_on
      (randomize_carefully_chain_aux sh hsh trialKeys hnd (by decide) N_BLOCKS)

theorem detection_timing_spec_witness :
    (detection_timing (@idShuffle Nat)).1.length = 16 ∧
    (detection_timing (@idShuffle Nat)).2.1.length = 16 ∧
    (detection_timing (@idShuffle Nat)).2.2.length = 16 ∧
    (∀ d ∈ (detection_timing (@idShuffle Nat)).1, d = (14 : ℚ)) ∧
    (∀ i ∈ (detection_timing (@idShuffle Nat)).2.1, i = (14 : ℚ)) ∧
    (∀ k ∈ trialKeys, (detection_timing (@idShuffle Nat)).2.2.count (TRIAL_DICT k) = 4) ∧
    List.Chain' (fun a b => a ≠ b) (detection_timing (@idShuffle Nat)).2.2 :=
  detection_timing_spec (@idShuffle Nat) idShuffle_valid

/-- One attempt of the estimation rejection loop: the duration and
inter-trial-interval vectors sampled by the fresh, unseeded
np.random.RandomState of that attempt. -/
structure EstDraw where
  durs : List ℚ
  itis : List ℚ

/-- N_TRIALS_TOTAL = N_TRIALS * N_CONDS. -/
def N_TRIALS_TOTAL : Nat := N_TRIALS * N_CONDS

/-- Rounding to one decimal place; np.round rounds exact midpoints to the
even neighbour while round rounds them up, which does not affect any band
or sum property proved here. -/
def roundTenth (x : ℚ) : ℚ := (round (10 * x) : ℤ) / 10

/-- possible_itis: the raw Gumbel candidate draws rounded to one decimal
and then cropped to the 2..8 band; raw stands for the 100000 gumbel_r
draws. -/
def possible_itis (raw : List ℚ) : List ℚ :=
  ((raw.map roundTenth).filter (fun x => 2 ≤ x)).filter (fun x => x ≤ 8)

theorem mem_possible_itis {raw : List ℚ} {x : ℚ} (h : x ∈ possible_itis raw) :
    2 ≤ x ∧ x ≤ 8 := by
  unfold possible_itis at h
  have h1 := List.of_mem_filter h
  have h3 := List.of_mem_filter (List.mem_of_mem_filter h)
  constructor
  · simpa using h3
  · simpa using h1

/-- missing_time = TASK_TIME - np.sum(durations + itis); the elementwise
vector sum of numpy is modelled with zipWith. -/
def missingTime (d : EstDraw) : ℚ :=
  TASK_TIME - (List.zipWith (fun a b => a + b) d.durs d.itis).sum

/-- Exit condition of the estimation rejection loop
while (not isclose(missing_time, 0, atol=10)) or (missing_time < 0):
the loop exits when the missing time is within 10 of zero and
nonnegative. -/
def estAccept (d : EstDraw) : Prop :=
  |missingTime d| ≤ 10 ∧ 0 ≤ missingTime d

instance : DecidablePred estAccept := fun d => by
  unfold estAccept
  infer_instance

/-- itis[-1] += x. -/
def addToLast (x : ℚ) : List ℚ → List ℚ
  | [] => []
  | [a] => [a + x]
  | a :: b :: rest => a :: addToLast x (b :: rest)

theorem addToLast_concat (x : ℚ) : ∀ (l : List ℚ) (a : ℚ),
    addToLast x (l ++ [a]) = l ++ [a + x]
  | [], _ => rfl
  | [_], _ => rfl
  | b :: c :: l2, a => by
    have hrec := addToLast_concat x (c :: l2) a
    show b :: addToLast x (c :: l2 ++ [a]) = b :: c :: l2 ++ [a + x]
    rw [hrec]
    simp

theorem sum_zipWith_add : ∀ (a b : List ℚ), a.length = b.length →
    (List.zipWith (fun x y => x + y) a b).sum = a.sum + b.sum
  | [], [], _ => by simp
  | [], _ :: _, h => by simp at h
  | _ :: _, [], h => by simp at h
  | x :: xs, y :: ys, h => by
    simp only [List.zipWith_cons_cons, List.sum_cons]
    rw [sum_zipWith_add xs ys (by simpa using h)]
    ring

/-- Validity of an estimation sampling oracle with candidate pool
possible_itis raw: at every attempt both sampled vectors have length
N_TRIALS_TOTAL and every sampled inter-trial interval is drawn from the
pool (state.choice with replacement). -/
def ValidEstOracle (raw : List ℚ) (oracle : Nat → EstDraw) : Prop :=
  ∀ k, (oracle k).durs.length = N_TRIALS_TOTAL ∧
       (oracle k).itis.length = N_TRIALS_TOTAL ∧
       ∀ x ∈ (oracle k).itis, x ∈ possible_itis raw

/-- Embedding of estimation_timing(seed) of generate_config_files.py: the
rejection loop accepts the first attempt whose missing time passes
estAccept (Nat.find); the residual is then recomputed and added to the
last iti; the condition order is randomize_carefully over the four trial
types with N_TRIALS repeats, mapped through TRIAL_DICT; the seed,
incremented once per executed attempt, is returned.  The unseeded
RandomState draws of each attempt are the oracle argument: the seed
argument is never passed to the random state in the source. -/
def estimation_timing (sh : ShuffleOracle Nat) (oracle : Nat → EstDraw)
    (seed : Nat) (h : ∃ k, estAccept (oracle k)) :
    (List ℚ × List ℚ × List String) × Nat :=
  let k := Nat.find h
  let d := oracle k
  ((d.durs, addToLast (missingTime d) d.itis,
    (randomize_carefully sh trialKeys N_TRIALS).map TRIAL_DICT),
   seed + k + 1)

theorem estimation_itis_decomp (oracle : Nat → EstDraw) (raw : List ℚ)
    (hval : ValidEstOracle raw oracle) (k : Nat) :
    ∃ l2 a, (oracle k).itis = l2 ++ [a] := by
  obtain ⟨_, hli, _⟩ := hval k
  rcases List.eq_nil_or_concat (oracle k).itis with hnil | ⟨l2, a, hconcat⟩
  · rw [hnil] at hli
    simp [N_TRIALS_TOTAL, N_TRIALS, N_CONDS] at hli
  · exact ⟨l2, a, by rw [hconcat, List.concat_eq_append]⟩

/-- C1: after the rejection loop accepts a sample and the residual
correction adds the remaining time to the last iti, the sum of duration +
iti over the entire emitted schedule equals TASK_TIME = 438 exactly, not
merely within tolerance. -/
theorem estimation_total_time_exact (sh : ShuffleOracle Nat)
    (oracle : Nat → EstDraw) (raw : List ℚ) (hval : ValidEstOracle raw oracle)
    (seed : Nat) (h : ∃ k, estAccept (oracle k)) :
    ((estimation_timing sh oracle seed h).1.1).sum +
      ((estimation_timing sh oracle seed h).1.2.1).sum = TASK_TIME := by
  obtain ⟨hld, hli, _⟩ := hval (Nat.find h)
  obtain ⟨l2, a, hconcat⟩ := estimation_itis_decomp oracle raw hval (Nat.find h)
  show (oracle (Nat.find h)).durs.sum +
    (addToLast (missingTime (oracle (Nat.find h))) (oracle (Nat.find h)).itis).sum
    = TASK_TIME
  have hmiss : missingTime (oracle (Nat.find h)) =
      TASK_TIME - ((oracle (Nat.find h)).durs.sum + (oracle (Nat.find h)).itis.sum) := by
    unfold missingTime
    rw [sum_zipWith_add _ _ (by rw [hld, hli])]
  rw [hconcat, addToLast_concat, List.sum_append]
  rw [hconcat, List.sum_append] at hmiss
  simp only [List.sum_cons, List.sum_nil] at hmiss ⊢
  linarith

/-- A concrete possible outcome of the unseeded RandomState draws: all
durations 3.2 s and all inter-trial intervals 4 s, at every attempt. -/
def estOracleW : Nat → EstDraw :=
  fun _ => ⟨List.replicate 60 (16/5 : ℚ), List.replicate 60 (4 : ℚ)⟩

theorem roundTenth_four : roundTenth (4 : ℚ) = 4 := by
  unfold roundTenth
  rw [show (10 * 4 : ℚ) = ((40 : ℤ) : ℚ) by norm_num, round_intCast]
  norm_num

theorem estOracleW_valid : ValidEstOracle [4] estOracleW := by
  intro k
  refine ⟨by simp [estOracleW, N_TRIALS_TOTAL, N_TRIALS, N_CONDS],
    by simp [estOracleW, N_TRIALS_TOTAL, N_TRIALS, N_CONDS], ?_⟩
  intro x hx
  rcases (List.mem_replicate.mp hx).2 with rfl
  show (4 : ℚ) ∈ possible_itis [4]
  unfold possible_itis
  simp only [List.map_cons, List.map_nil, roundTenth_four]
  norm_num

theorem estimation_witness_accept : estAccept (estOracleW 0) := by
  unfold estAccept missingTime estOracleW
  rw [sum_zipWith_add _ _ (by simp)]
  rw [List.sum_replicate, List.sum_replicate, nsmul_eq_mul, nsmul_eq_mul]
  unfold TASK_TIME
  norm_num

theorem estimation_witness_ex : ∃ k, estAccept (estOracleW k) :=
  ⟨0, estimation_witness_accept⟩

theorem estimation_total_time_exact_witness :
    ((estimation_timing (@idShuffle Nat) estOracleW
        7 estimation_witness_ex).1.1).sum +
      ((estimation_timing (@idShuffle Nat) estOracleW
        7 estimation_witness_ex).1.2.1).sum = TASK_TIME :=
  estimation_total_time_exact (@idShuffle Nat) estOracleW [4]
    estOracleW_valid 7 estimation_witness_ex

/-- C10: every emitted inter-trial interval except the last lies in the
configured band 2..8 of the truncated candidate pool, while the last one,
after the residual correction is added to it, may exceed the band maximum
8 by at most the acceptance tolerance 10. -/
theorem estimation_iti_band (sh : ShuffleOracle Nat) (oracle : Nat → EstDraw)
    (raw : List ℚ) (hval : ValidEstOracle raw oracle) (seed : Nat)
    (h : ∃ k, estAccept (oracle k)) :
    (∀ x ∈ ((estimation_timing sh oracle seed h).1.2.1).dropLast,
      2 ≤ x ∧ x ≤ 8) ∧
    (∀ x, ((estimation_timing sh oracle seed h).1.2.1).getLast? = some x →
      x ≤ 8 + 10) := by
  obtain ⟨hld, hli, hpool⟩ := hval (Nat.find h)
  obtain ⟨l2, a, hconcat⟩ := estimation_itis_decomp oracle raw hval (Nat.find h)
  have hshow : (estimation_timing sh oracle seed h).1.2.1 =
      addToLast (missingTime (oracle (Nat.find h))) (oracle (Nat.find h)).itis := rfl
  rw [hshow, hconcat, addToLast_concat]
  constructor
  · intro x hx
    rw [List.dropLast_concat] at hx
    have hxmem : x ∈ (oracle (Nat.find h)).itis := by
      rw [hconcat]
      exact List.mem_append_left _ hx
    exact mem_possible_itis (hpool x hxmem)
  · intro x hx
    rw [List.getLast?_concat] at hx
    rcases Option.some_inj.mp hx with rfl
    have hamem : a ∈ (oracle (Nat.find h)).itis := by
      rw [hconcat]
      exact List.mem_append_right _ (List.mem_singleton_self a)
    have ha8 : a ≤ 8 := (mem_possible_itis (hpool a hamem)).2
    have hacc := Nat.find_spec h
    have hm10 : missingTime (oracle (Nat.find h)) ≤ 10 := (abs_le.mp hacc.1).2
    linarith

theorem estimation_iti_band_witness :
    (∀ x ∈ ((estimation_timing (@idShuffle Nat) estOracleW
        7 estimation_witness_ex).1.2.1).dropLast,
      2 ≤ x ∧ x ≤ 8) ∧
    (∀ x, ((estimation_timing (@idShuffle Nat) estOracleW
        7 estimation_witness_ex).1.2.1).getLast? = some x →
      x ≤ 8 + 10) :=
  estimation_iti_band (@idShuffle Nat) estOracleW [4]
    estOracleW_valid 7 estimation_witness_ex

/-- Audio pool _AUDIO_FILES of generate_config_files.py. -/
def AUDIO_FILES : List String := [
  "audio/Ambush_in_Rattlesnake_Gulch.wav",
  "audio/Bleu.wav",
  "audio/Bollywood_Groove.wav",
  "audio/Breaking_Bollywood.wav",
  "audio/Coy_Koi.wav",
  "audio/Cumbish.wav",
  "audio/Desert_Conflict.wav",
  "audio/Funshine.wav",
  "audio/Improv_for_Evil.wav",
  "audio/Jack_The_Lumberer.wav",
  "audio/Le_Baguette.wav",
  "audio/Shenzhen_Nightlife.wav",
  "audio/Stereotype_News.wav",
  "audio/Ukulele_Song.wav"]

/-- Models the Python substring test of the word auditory in a trial-type
label; on the four TRIAL_DICT values it holds exactly for the two
slash-auditory labels. -/
def isAuditory (s : String) : Bool :=
  s == "visual/auditory" || s == "motor/auditory"

/-- n_audio_trials = N_TRIALS times the number of auditory trial types
(15 * 2 = 30). -/
def n_audio_trials : Nat :=
  N_TRIALS * ((trialKeys.map TRIAL_DICT).filter isAuditory).length

/-- Ceiling division on naturals: int(np.ceil(a / b)) for nonnegative
integer inputs with b positive. -/
def ceilDiv (a b : Nat) : Nat := (a + b - 1) / b

/-- np.repeat(np.arange(n_stim), n_repeats) with
n_repeats = ceil(n_aud / n_stim): each index 0..n_stim-1 repeated
n_repeats times in order. -/
def audioNumbers (n_aud n_stim : Nat) : List Nat :=
  (List.range n_stim).flatMap (fun i => List.replicate (ceilDiv n_aud n_stim) i)

/-- The shuffled audio index order of determine_timing: np.random.shuffle
applied to the whole repeated index array. -/
def audio_files_order (ash : List Nat → List Nat) (pool : List String)
    (n_aud : Nat) : List Nat :=
  ash (audioNumbers n_aud pool.length)

/-- The files consumed by n_aud auditory trials: the trial loop walks the
schedule and hands out audio_files[c] with c incremented on each auditory
trial, hence the first n_aud entries of the shuffled file list. -/
def assign_audio (ash : List Nat → List Nat) (pool : List String)
    (n_aud : Nat) : List String :=
  ((audio_files_order ash pool n_aud).take n_aud).map (fun i => pool.getD i "")

theorem ceilDiv_mul_ge (a b : Nat) (hb : 1 ≤ b) : a ≤ b * ceilDiv a b := by
  unfold ceilDiv
  have hdm := Nat.div_add_mod (a + b - 1) b
  have hmlt : (a + b - 1) % b < b := Nat.mod_lt _ hb
  omega

theorem audioNumbers_length (n s : Nat) :
    (audioNumbers n s).length = s * ceilDiv n s := by
  unfold audioNumbers
  rw [List.length_flatMap]
  have hmap : (List.range s).map (List.length ∘ fun i => List.replicate (ceilDiv n s) i) =
      List.replicate s (ceilDiv n s) := by
    have h1 : (List.length ∘ fun i : Nat => List.replicate (ceilDiv n s) i) =
        Function.const Nat (ceilDiv n s) := by
      funext i
      simp [Function.const]
    rw [h1, List.map_const, List.length_range]
  rw [hmap, List.sum_replicate, smul_eq_mul]

theorem count_flatMap_replicate (r s i : Nat) :
    ((List.range s).flatMap (fun j => List.replicate r j)).count i =
      if i < s then r else 0 := by
  induction s with
  | zero => simp
  | succ m ih =>
    rw [List.range_succ, List.flatMap_append, List.count_append, ih]
    simp only [List.flatMap_cons, List.flatMap_nil, List.append_nil,
      List.count_replicate, beq_iff_eq]
    split_ifs <;> omega

theorem count_audioNumbers_le (n s i : Nat) :
    (audioNumbers n s).count i ≤ ceilDiv n s := by
  unfold audioNumbers
  rw [count_flatMap_replicate]
  split <;> omega

theorem mem_audioNumbers {n s i : Nat} (h : i ∈ audioNumbers n s) : i < s := by
  unfold audioNumbers at h
  rcases List.mem_flatMap.mp h with ⟨j, hj, hrep⟩
  rcases (List.mem_replicate.mp hrep).2 with rfl
  exact List.mem_range.mp hj

/-- C6 counterexample: with the identity shuffle outcome, 30 auditory
trials and the 14-file pool, the first pool file is consumed 3 times while
the last pool file is consumed 0 times, so usage counts differ by more
than 1. -/
theorem assign_audio_uneven_cex :
    (assign_audio (fun l => l) AUDIO_FILES 30).count
        "audio/Ukulele_Song.wav" + 1 <
      (assign_audio (fun l => l) AUDIO_FILES 30).count
        "audio/Ambush_in_Rattlesnake_Gulch.wav" := by
  decide

/-- C6 amended: for every shuffle outcome, every nonempty pool and every
number of auditory trials, the assignment returns exactly one pool file
per auditory trial, and each pool slot is consumed at most
ceil(n_aud / pool size) times; usage counts of two files may differ by
more than 1 (up to that ceiling) because the whole repeated pool is
shuffled and only a prefix is consumed. -/
theorem assign_audio_bounded (ash : List Nat → List Nat)
    (hash : ∀ l, (ash l).Perm l) (pool : List String) (hp : pool ≠ [])
    (n_aud : Nat) :
    (assign_audio ash pool n_aud).length = n_aud ∧
    (∀ f ∈ assign_audio ash pool n_aud, f ∈ pool) ∧
    (∀ i, ((audio_files_order ash pool n_aud).take n_aud).count i ≤
      ceilDiv n_aud pool.length) := by
  have hs1 : 1 ≤ pool.length := List.length_pos.mpr hp
  have hordlen : (audio_files_order ash pool n_aud).length =
      pool.length * ceilDiv n_aud pool.length := by
    unfold audio_files_order
    rw [(hash _).length_eq, audioNumbers_length]
  refine ⟨?_, ?_, ?_⟩
  · unfold assign_audio
    rw [List.length_map, List.length_take, hordlen]
    exact Nat.min_eq_left (ceilDiv_mul_ge n_aud pool.length hs1)
  · intro f hf
    unfold assign_audio at hf
    rcases List.mem_map.mp hf with ⟨i, hi, rfl⟩
    have himem : i ∈ audioNumbers n_aud pool.length := by
      have h1 : i ∈ audio_files_order ash pool n_aud :=
        (List.take_sublist n_aud _).mem hi
      unfold audio_files_order at h1
      exact (hash _).mem_iff.mp h1
    have hilt : i < pool.length := mem_audioNumbers himem
    rw [List.getD_eq_getElem pool "" hilt]
    exact List.getElem_mem hilt
  · intro i
    refine le_trans ((List.take_sublist n_aud _).count_le i) ?_
    unfold audio_files_order
    rw [(hash _).count_eq]
    exact count_audioNumbers_le n_aud pool.length i

theorem assign_audio_bounded_witness :
    (assign_audio (fun l => l) AUDIO_FILES 30).length = 30 ∧
    (∀ f ∈ assign_audio (fun l => l) AUDIO_FILES 30, f ∈ AUDIO_FILES) ∧
    (∀ i, ((audio_files_order (fun l => l) AUDIO_FILES 30).take 30).count i ≤
      ceilDiv 30 AUDIO_FILES.length) :=
  assign_audio_bounded (fun l => l) (fun l => List.Perm.refl l) AUDIO_FILES
    (by decide) 30

/-- The stim_file column loop of determine_timing: walk the trial types in
order; an auditory trial consumes the next entry of the shuffled audio
file list, a non-auditory trial gets none. -/
def assignStims : List String → List String → List (Option String)
  | _, [] => []
  | files, t :: ts =>
    if isAuditory t then files.head? :: assignStims files.tail ts
    else none :: assignStims files ts

/-- Embedding of determine_timing(ttype=Estimation, seed): the audio file
order is drawn with the ambient (global, unseeded) np.random.shuffle, the
timing and condition order come from estimation_timing, and stim files are
assigned to auditory trials in schedule order. -/
def determine_timing_estimation (ash : List Nat → List Nat)
    (sh : ShuffleOracle Nat) (oracle : Nat → EstDraw) (seed : Nat)
    (h : ∃ k, estAccept (oracle k)) :
    (List ℚ × List ℚ × List String × List (Option String)) × Nat :=
  let audio_files := (audio_files_order ash AUDIO_FILES n_audio_trials).map
    (fun i => AUDIO_FILES.getD i "")
  let r := estimation_timing sh oracle seed h
  ((r.1.1, r.1.2.1, r.1.2.2, assignStims audio_files r.1.2.2), r.2)

/-- A second possible outcome of the unseeded RandomState draws: all
durations 3.3 s and all inter-trial intervals 4 s. -/
def estOracleW2 : Nat → EstDraw :=
  fun _ => ⟨List.replicate 60 (33/10 : ℚ), List.replicate 60 (4 : ℚ)⟩

theorem estOracleW2_accept : estAccept (estOracleW2 0) := by
  unfold estAccept missingTime estOracleW2
  rw [sum_zipWith_add _ _ (by simp)]
  rw [List.sum_replicate, List.sum_replicate, nsmul_eq_mul, nsmul_eq_mul]
  unfold TASK_TIME
  norm_num

theorem estOracleW2_ex : ∃ k, estAccept (estOracleW2 k) :=
  ⟨0, estOracleW2_accept⟩

/-- C4: the seed argument never reaches the samplers.  First part: the
schedule part of determine_timing for the estimation task is unchanged
under any change of the seed argument (the seed is only incremented and
returned).  Second part: two runs with the same seed but different ambient
entropy (the unseeded RandomState draws of the source) return different
schedules, so a fixed seed does not make the schedule reproducible. -/
theorem determine_timing_ignores_seed :
    (∀ (ash : List Nat → List Nat) (sh : ShuffleOracle Nat)
      (oracle : Nat → EstDraw) (s1 s2 : Nat) (h : ∃ k, estAccept (oracle k)),
      (determine_timing_estimation ash sh oracle s1 h).1 =
        (determine_timing_estimation ash sh oracle s2 h).1) ∧
    (determine_timing_estimation (fun l => l) (@idShuffle Nat) estOracleW
        7 estimation_witness_ex).1 ≠
      (determine_timing_estimation (fun l => l) (@idShuffle Nat) estOracleW2
        7 estOracleW2_ex).1 := by
  constructor
  · intro ash sh oracle s1 s2 h
    rfl
  · intro heq
    have h1 := congrArg (fun p => p.1) heq
    simp only [determine_timing_estimation, estimation_timing, estOracleW,
      estOracleW2] at h1
    have h2 := congrArg List.head? h1
    simp only [List.head?_replicate] at h2
    norm_num at h2

theorem determine_timing_ignores_seed_witness :
    (determine_timing_estimation (fun l => l) (@idShuffle Nat) estOracleW
        3 estimation_witness_ex).1 =
      (determine_timing_estimation (fun l => l) (@idShuffle Nat) estOracleW
        5 estimation_witness_ex).1 :=
  determine_timing_ignores_seed.1 (fun l => l) (@idShuffle Nat) estOracleW
    3 5 estimation_witness_ex

/-- TOTAL_TIME of combined_task.py. -/
def TOTAL_TIME : ℚ := 438

/-- One attempt of the combined_task rejection loop: the per-condition
vectors of n_trials uniform durations and itis drawn by the fresh unseeded
RandomState of that attempt. -/
structure CDraw where
  durs : List ℚ
  itis : List ℚ

/-- np.average of a two-element range tuple. -/
def avg2 (r : ℚ × ℚ) : ℚ := (r.1 + r.2) / 2

/-- length = (np.average(dur_range) + np.average(iti_range)) * n_trials,
the desired per-condition time of trial_duration_and_iti. -/
def lengthPerCond (dur_range iti_range : ℚ × ℚ) (n_trials : Nat) : ℚ :=
  (avg2 dur_range + avg2 iti_range) * (n_trials : ℚ)

/-- Exit condition of the combined_task rejection loop
while not isclose(missing_time_per_cond, 0.0, atol=.001): an attempt is
accepted when the per-condition missing time is within 0.001 of zero. -/
def cAccept (dur_range iti_range : ℚ × ℚ) (n_trials : Nat) (d : CDraw) : Prop :=
  |lengthPerCond dur_range iti_range n_trials -
    (List.zipWith (fun a b => a + b) d.durs d.itis).sum| ≤ 1/1000

instance cAcceptDecidable (dur_range iti_range : ℚ × ℚ) (n_trials : Nat) :
    DecidablePred (cAccept dur_range iti_range n_trials) := fun d => by
  unfold cAccept
  infer_instance

/-- The body of trial_duration_and_iti after the feasibility check, at the
accepted attempt k: the missing time is recomputed, shifted by the
per-condition share TOTAL_TIME / n_conds - length, and added to the last
sampled iti; then each condition independently permutes the (uncorrected)
duration vector and the (corrected) iti vector.  The n_conds duration
permutations use oracle indices 0..n_conds-1, the n_conds iti permutations
indices n_conds..2*n_conds-1, matching the call order in the source. -/
def tdiBody (dur_range iti_range : ℚ × ℚ) (n_trials n_conds : Nat)
    (oracle : Nat → CDraw) (perm : ShuffleOracle ℚ) (k : Nat) :
    List (List ℚ) × List (List ℚ) :=
  let d := oracle k
  let missing := lengthPerCond dur_range iti_range n_trials -
    (List.zipWith (fun a b => a + b) d.durs d.itis).sum
  let missing2 := missing +
    (TOTAL_TIME / (n_conds : ℚ) - lengthPerCond dur_range iti_range n_trials)
  let trial_itis := addToLast missing2 d.itis
  ((List.range n_conds).map (fun c => perm c d.durs),
   (List.range n_conds).map (fun c => perm (n_conds + c) trial_itis))

/-- Embedding of trial_duration_and_iti of combined_task.py: the
feasibility sanity check raises before any sampling; otherwise the
rejection loop accepts the first attempt passing cAccept and the corrected
and permuted vectors are returned. -/
def trial_duration_and_iti (dur_range iti_range : ℚ × ℚ)
    (n_trials n_conds : Nat) (oracle : Nat → CDraw) (perm : ShuffleOracle ℚ)
    (h : ∃ k, cAccept dur_range iti_range n_trials (oracle k)) :
    Except String (List (List ℚ) × List (List ℚ)) :=
  if 10 < |lengthPerCond dur_range iti_range n_trials * (n_conds : ℚ) - TOTAL_TIME| then
    Except.error "Inputs do not seem compatible with total desired time."
  else
    Except.ok (tdiBody dur_range iti_range n_trials n_conds oracle perm (Nat.find h))

/-- C7: if n_total_trials * average(dur_range) + n_total_trials *
average(iti_range), with n_total_trials = n_trials * n_conds, deviates
from TOTAL_TIME by more than the 10 s sanity margin, the allocator returns
the configuration error before any sampling attempt (for every sampling
oracle); otherwise it proceeds to the rejection loop and returns an ok
result. -/
theorem tdi_feasibility (dur_range iti_range : ℚ × ℚ)
    (n_trials n_conds : Nat) (oracle : Nat → CDraw) (perm : ShuffleOracle ℚ)
    (h : ∃ k, cAccept dur_range iti_range n_trials (oracle k)) :
    (10 < |avg2 dur_range * ((n_trials * n_conds : Nat) : ℚ) +
        avg2 iti_range * ((n_trials * n_conds : Nat) : ℚ) - TOTAL_TIME| →
      ∀ (oracle2 : Nat → CDraw) (perm2 : ShuffleOracle ℚ)
        (h2 : ∃ k, cAccept dur_range iti_range n_trials (oracle2 k)),
        trial_duration_and_iti dur_range iti_range n_trials n_conds oracle2 perm2 h2 =
          Except.error "Inputs do not seem compatible with total desired time.") ∧
    (|avg2 dur_range * ((n_trials * n_conds : Nat) : ℚ) +
        avg2 iti_range * ((n_trials * n_conds : Nat) : ℚ) - TOTAL_TIME| ≤ 10 →
      ∃ out, trial_duration_and_iti dur_range iti_range n_trials n_conds oracle perm h =
        Except.ok out) := by
  have hkey : lengthPerCond dur_range iti_range n_trials * (n_conds : ℚ) - TOTAL_TIME =
      avg2 dur_range * ((n_trials * n_conds : Nat) : ℚ) +
        avg2 iti_range * ((n_trials * n_conds : Nat) : ℚ) - TOTAL_TIME := by
    unfold lengthPerCond
    push_cast
    ring
  constructor
  · intro hdev oracle2 perm2 h2
    have hcond : 10 < |lengthPerCond dur_range iti_range n_trials * (n_conds : ℚ) -
        TOTAL_TIME| := by
      rw [hkey]
      exact hdev
    unfold trial_duration_and_iti
    rw [if_pos hcond]
  · intro hdev
    have hcond : ¬ 10 < |lengthPerCond dur_range iti_range n_trials * (n_conds : ℚ) -
        TOTAL_TIME| := by
      rw [hkey]
      exact not_lt.mpr hdev
    unfold trial_duration_and_iti
    rw [if_neg hcond]
    exact ⟨_, rfl⟩

/-- Witness oracle for the real combined_task configuration: durations 3 s
and itis 7.42 s for the 14 trials of a condition, an accepted draw. -/
def cOracleW : Nat → CDraw :=
  fun _ => ⟨List.replicate 14 (3 : ℚ), List.replicate 14 (742/100 : ℚ)⟩

theorem cOracleW_accept : cAccept (1, 5) (3, 1184/100) 14 (cOracleW 0) := by
  unfold cAccept cOracleW lengthPerCond avg2
  rw [sum_zipWith_add _ _ (by simp)]
  rw [List.sum_replicate, List.sum_replicate, nsmul_eq_mul, nsmul_eq_mul]
  norm_num

theorem cOracleW_ex : ∃ k, cAccept (1, 5) (3, 1184/100) 14 (cOracleW k) :=
  ⟨0, cOracleW_accept⟩

theorem tdi_feasibility_witness :
    (10 < |avg2 (1, 5) * ((14 * 3 : Nat) : ℚ) +
        avg2 (3, 1184/100) * ((14 * 3 : Nat) : ℚ) - TOTAL_TIME| →
      ∀ (oracle2 : Nat → CDraw) (perm2 : ShuffleOracle ℚ)
        (h2 : ∃ k, cAccept (1, 5) (3, 1184/100) 14 (oracle2 k)),
        trial_duration_and_iti (1, 5) (3, 1184/100) 14 3 oracle2 perm2 h2 =
          Except.error "Inputs do not seem compatible with total desired time.") ∧
    (|avg2 (1, 5) * ((14 * 3 : Nat) : ℚ) +
        avg2 (3, 1184/100) * ((14 * 3 : Nat) : ℚ) - TOTAL_TIME| ≤ 10 →
      ∃ out, trial_duration_and_iti (1, 5) (3, 1184/100) 14 3 cOracleW
        (@idShuffle ℚ) cOracleW_ex = Except.ok out) :=
  tdi_feasibility (1, 5) (3, 1184/100) 14 3 cOracleW (@idShuffle ℚ) cOracleW_ex

/-- Modelled from the spec words for comparison (refinement target of C5):
the residual correction applied after the per-condition permutation, to
the literal last element of the emitted sequence: an emitted iti sequence
of this form is some permutation of the raw sampled itis with the residual
added to its last element. -/
def correctionAfterShuffle (raw_itis : List ℚ) (m : ℚ) (emitted : List ℚ) : Prop :=
  ∃ l, l.Perm raw_itis ∧ emitted = addToLast m l

/-- The accepted draw of the C5 counterexample: durations 109 and 110,
itis 109 and 110.0005; the total is 438.0005, so the missing time is
-0.0005, within the 0.001 tolerance. -/
def cOracleCex : Nat → CDraw := fun _ => ⟨[109, 110], [109, 220001/2000]⟩

theorem cOracleCex_accept : cAccept (100, 119) (100, 119) 2 (cOracleCex 0) := by
  unfold cAccept cOracleCex lengthPerCond avg2
  simp only [List.zipWith_cons_cons, List.zipWith_nil_right, List.sum_cons,
    List.sum_nil]
  norm_num [abs_le]

theorem cOracleCex_ex : ∃ k, cAccept (100, 119) (100, 119) 2 (cOracleCex k) :=
  ⟨0, cOracleCex_accept⟩

/-- A concrete permutation outcome for the C5 counterexample: the first
np.random.permutation call (the duration vector of the single condition)
returns its input unchanged; every later call reverses its input. -/
def cPermRev : ShuffleOracle ℚ := fun i l => if i = 0 then l else l.reverse

/-- C5 counterexample: a concrete accepted run of trial_duration_and_iti
whose emitted iti sequence for the single condition is [110, 109], which
is not any permutation of the raw sampled itis with the residual added to
its last element: in the source the correction lands on the pre-shuffle
vector, before the per-condition permutation. -/
theorem tdi_residual_before_shuffle_cex :
    trial_duration_and_iti (100, 119) (100, 119) 2 1 cOracleCex cPermRev
        cOracleCex_ex = Except.ok ([[109, 110]], [[110, 109]]) ∧
      ¬ correctionAfterShuffle [109, 220001/2000] (-(1/2000)) [110, 109] := by
  constructor
  · unfold trial_duration_and_iti
    rw [if_neg (by norm_num [lengthPerCond, avg2, TOTAL_TIME])]
    have hfind : Nat.find cOracleCex_ex = 0 :=
      (Nat.find_eq_zero cOracleCex_ex).mpr cOracleCex_accept
    rw [hfind]
    unfold tdiBody cOracleCex
    simp only [List.zipWith_cons_cons, List.zipWith_nil_right, List.sum_cons,
      List.sum_nil, List.range_succ, List.range_zero, List.nil_append,
      List.map_cons, List.map_nil]
    unfold cPermRev lengthPerCond avg2 TOTAL_TIME
    norm_num [addToLast, List.reverse_cons]
  · rintro ⟨l, hperm, heq⟩
    have hlen : l.length = 2 := by
      have := hperm.length_eq
      simpa using this
    rcases l with _ | ⟨a, l1⟩
    · simp at hlen
    rcases l1 with _ | ⟨b, l2⟩
    · simp at hlen
    rcases l2 with _ | ⟨c, l3⟩
    swap
    · simp at hlen
    have heq2 : (110 : ℚ) = a ∧ (109 : ℚ) = b + -(1/2000) := by
      simpa [addToLast] using heq
    have hamem : (110 : ℚ) ∈ ([109, 220001/2000] : List ℚ) := by
      refine hperm.mem_iff.mp ?_
      rw [← heq2.1]
      exact List.mem_cons_self _ _
    rcases List.mem_cons.mp hamem with h109 | h110
    · norm_num at h109
    · rw [List.mem_singleton] at h110
      norm_num at h110

/-- C5 amended: the residual correction is applied to the last element of
the sampled iti vector before the per-condition permutations: when the
feasibility check passes, every emitted per-condition iti sequence is a
permutation of the corrected sampled vector (the residual therefore lands
at an arbitrary position of each emitted sequence, and every condition
receives a copy of the corrected value). -/
theorem tdi_correction_before_shuffle (dur_range iti_range : ℚ × ℚ)
    (n_trials n_conds : Nat) (oracle : Nat → CDraw) (perm : ShuffleOracle ℚ)
    (hperm : ValidShuffle perm)
    (h : ∃ k, cAccept dur_range iti_range n_trials (oracle k))
    (hfeas : ¬ 10 < |lengthPerCond dur_range iti_range n_trials * (n_conds : ℚ) -
      TOTAL_TIME|) :
    ∃ D I, trial_duration_and_iti dur_range iti_range n_trials n_conds oracle
        perm h = Except.ok (D, I) ∧
      I.length = n_conds ∧
      ∀ itisC ∈ I, itisC.Perm (addToLast
        (lengthPerCond dur_range iti_range n_trials -
          (List.zipWith (fun a b => a + b) (oracle (Nat.find h)).durs
            (oracle (Nat.find h)).itis).sum +
          (TOTAL_TIME / (n_conds : ℚ) -
            lengthPerCond dur_range iti_range n_trials))
        (oracle (Nat.find h)).itis) := by
  refine ⟨(List.range n_conds).map (fun c => perm c (oracle (Nat.find h)).durs),
    (List.range n_conds).map (fun c => perm (n_conds + c) (addToLast
      (lengthPerCond dur_range iti_range n_trials -
        (List.zipWith (fun a b => a + b) (oracle (Nat.find h)).durs
          (oracle (Nat.find h)).itis).sum +
        (TOTAL_TIME / (n_conds : ℚ) -
          lengthPerCond dur_range iti_range n_trials))
      (oracle (Nat.find h)).itis)), ?_, ?_, ?_⟩
  · unfold trial_duration_and_iti
    rw [if_neg hfeas]
    rfl
  · rw [List.length_map, List.length_range]
  · intro itisC hc
    rcases List.mem_map.mp hc with ⟨c, _, rfl⟩
    exact hperm (n_conds + c) _

theorem tdi_correction_before_shuffle_witness :
    ∃ D I, trial_duration_and_iti (1, 5) (3, 1184/100) 14 3 cOracleW
        (@idShuffle ℚ) cOracleW_ex = Except.ok (D, I) ∧
      I.length = 3 ∧
      ∀ itisC ∈ I, itisC.Perm (addToLast
        (lengthPerCond (1, 5) (3, 1184/100) 14 -
          (List.zipWith (fun a b => a + b) (cOracleW (Nat.find cOracleW_ex)).durs
            (cOracleW (Nat.find cOracleW_ex)).itis).sum +
          (TOTAL_TIME / ((3 : Nat) : ℚ) -
            lengthPerCond (1, 5) (3, 1184/100) 14))
        (cOracleW (Nat.find cOracleW_ex)).itis) :=
  tdi_correction_before_shuffle (1, 5) (3, 1184/100) 14 3 cOracleW
    (@idShuffle ℚ) idShuffle_valid cOracleW_ex
    (by norm_num [lengthPerCond, avg2, TOTAL_TIME, abs_le])

end Localizer
